/-
Verification of the pauxy estimator and back-propagation engine
(src/pauxy/estimators.py) against its natural-language specification.

Conventions of the shallow embedding:
* Machine floating-point scalars are modelled as exact rationals (ℚ); complex
  machine scalars are modelled as Gaussian rationals (`Cx` below), keeping
  every definition executable.
* numpy arrays are modelled as Mathlib matrices over `Fin`-indexed types;
  spin-indexed pairs of matrices (shape `(2, n, n)`) as `Fin 2 → Matrix _ _ ℚ`.
* `scipy.linalg.inv` is modelled by `matInv` below (inverse via adjugate over a
  field, the same value Mathlib assigns to `A⁻¹`).
* In-place mutation of buffers is modelled by explicit state passing.
* Python's `%` raising `ZeroDivisionError` on a zero modulus is modelled by
  `pymod` returning `Except`.
-/
import Mathlib

namespace Pauxy

open Matrix

/-- Size of square matrices used throughout: `Mat n` is an `n × n` rational
matrix (numpy `(n, n)` array of real floats, modelled exactly). -/
abbrev Mat (n : ℕ) : Type := Matrix (Fin n) (Fin n) ℚ

/-- Embeds `scipy.linalg.inv`: matrix inverse, written explicitly through the
adjugate so that it is executable.  Agrees with Mathlib's noncomputable
`A⁻¹` (see `matInv_eq_inv`). -/
def matInv {k : ℕ} (A : Matrix (Fin k) (Fin k) ℚ) : Matrix (Fin k) (Fin k) ℚ :=
  A.det⁻¹ • A.adjugate

theorem matInv_eq_inv {k : ℕ} (A : Matrix (Fin k) (Fin k) ℚ) : matInv A = A⁻¹ := by
  rw [Matrix.inv_def, Ring.inverse_eq_inv]
  rfl

/-- Embeds `pauxy.estimators.gab` (src/pauxy/estimators.py:919-952).
`GAB = B.dot(inv_O.dot(A.conj().T))` with `inv_O = scipy.linalg.inv((A.conj().T).dot(B))`.
Over ℚ the conjugate transpose `Aᴴ` is the plain transpose (trivial star). -/
def gab {m k : ℕ} (A B : Matrix (Fin m) (Fin k) ℚ) : Matrix (Fin m) (Fin m) ℚ :=
  let inv_O := matInv (Aᴴ * B)
  B * (inv_O * Aᴴ)

theorem matInv_mul {k : ℕ} (A : Matrix (Fin k) (Fin k) ℚ) (h : A.det ≠ 0) :
    matInv A * A = 1 := by
  rw [matInv_eq_inv]
  exact Matrix.nonsing_inv_mul A (isUnit_iff_ne_zero.mpr h)

theorem mul_matInv {k : ℕ} (A : Matrix (Fin k) (Fin k) ℚ) (h : A.det ≠ 0) :
    A * matInv A = 1 := by
  rw [matInv_eq_inv]
  exact Matrix.mul_nonsing_inv A (isUnit_iff_ne_zero.mpr h)

/-- For a square full-rank `A`, `gab A A = 1`: the overlap `Aᴴ·A` is invertible
and the product collapses. -/
theorem gab_self_eq_one {k : ℕ} (A : Matrix (Fin k) (Fin k) ℚ) (h : A.det ≠ 0) :
    gab A A = 1 := by
  have hH : (Aᴴ).det ≠ 0 := by
    rw [Matrix.det_conjTranspose]
    simpa using h
  have hO : (Aᴴ * A).det ≠ 0 := by
    rw [Matrix.det_mul]
    exact mul_ne_zero hH h
  have hA : A * matInv A = 1 := mul_matInv A h
  have hA' : matInv A * A = 1 := matInv_mul A h
  have hAH : Aᴴ * matInv (Aᴴ) = 1 := mul_matInv (Aᴴ) hH
  have hAH' : matInv (Aᴴ) * Aᴴ = 1 := matInv_mul (Aᴴ) hH
  -- uniqueness of the inverse: matInv (Aᴴ * A) = matInv A * matInv Aᴴ
  have key : matInv (Aᴴ * A) = matInv A * matInv (Aᴴ) := by
    have h1 : (Aᴴ * A) * (matInv A * matInv (Aᴴ)) = 1 := by
      calc (Aᴴ * A) * (matInv A * matInv (Aᴴ))
          = Aᴴ * ((A * matInv A) * matInv (Aᴴ)) := by
            simp [Matrix.mul_assoc]
        _ = 1 := by rw [hA, Matrix.one_mul, hAH]
    calc matInv (Aᴴ * A) = matInv (Aᴴ * A) * 1 := by rw [Matrix.mul_one]
      _ = matInv (Aᴴ * A) * ((Aᴴ * A) * (matInv A * matInv (Aᴴ))) := by rw [h1]
      _ = (matInv (Aᴴ * A) * (Aᴴ * A)) * (matInv A * matInv (Aᴴ)) := by
            simp only [Matrix.mul_assoc]
      _ = matInv A * matInv (Aᴴ) := by rw [matInv_mul _ hO, Matrix.one_mul]
  show A * (matInv (Aᴴ * A) * Aᴴ) = 1
  rw [key]
  calc A * ((matInv A * matInv (Aᴴ)) * Aᴴ)
      = (A * matInv A) * (matInv (Aᴴ) * Aᴴ) := by simp [Matrix.mul_assoc]
    _ = 1 := by rw [hA, hAH', Matrix.one_mul]

/-- C4 (counterexample): at `A = 1` (a 1×1 full-rank matrix) the claimed
identity `Aᴴ·(I − gab A A) = Aᴴ` fails: `gab A A = I`, so the left side is `0`
while `Aᴴ = 1`. -/
theorem gab_projector_claim_false :
    (1 : Mat 1)ᴴ * (1 - gab (1 : Mat 1) 1) ≠ (1 : Mat 1)ᴴ := by
  have hg : gab (1 : Mat 1) 1 = 1 :=
    gab_self_eq_one 1 (by simp)
  rw [hg]
  simp only [sub_self, Matrix.mul_zero, Matrix.conjTranspose_one]
  intro h
  have h00 := congrFun (congrFun h 0) 0
  simp [Matrix.one_apply] at h00

/-- C4 (amended): for every square full-rank `A`, `gab A A` is the identity
(the projector onto `A`'s full column space), hence `Aᴴ · gab A A = Aᴴ` and
`Aᴴ·(I − gab A A) = 0`. -/
theorem gab_self_projector {k : ℕ} (A : Matrix (Fin k) (Fin k) ℚ) (h : A.det ≠ 0) :
    gab A A = 1 ∧ Aᴴ * gab A A = Aᴴ ∧ Aᴴ * (1 - gab A A) = 0 := by
  have hg := gab_self_eq_one A h
  exact ⟨hg, by rw [hg, Matrix.mul_one], by rw [hg, sub_self, Matrix.mul_zero]⟩

/-- C4 (witness): the amended projector identity instantiated at the concrete
full-rank matrix `A = 1` of size 1. -/
theorem gab_self_projector_witness :
    gab (1 : Mat 1) 1 = 1 ∧ (1 : Mat 1)ᴴ * gab (1 : Mat 1) 1 = (1 : Mat 1)ᴴ ∧
      (1 : Mat 1)ᴴ * (1 - gab (1 : Mat 1) 1) = 0 :=
  gab_self_projector (1 : Mat 1) (by simp)

/-! ### Column-block slicing

Walker state matrices `phi` have shape `(nbasis, nup + ndown)`; the code slices
them as `phi[:, :nup]` (up-spin block) and `phi[:, nup:]` (down-spin block). -/

/-- A walker/trial state matrix: `nbasis` rows, one column per occupied
up- or down-spin orbital. -/
abbrev StateMat (n nup ndn : ℕ) : Type := Matrix (Fin n) (Fin (nup + ndn)) ℚ

/-- The slice `phi[:, :nup]`. -/
def upCols {n nup ndn : ℕ} (A : StateMat n nup ndn) : Matrix (Fin n) (Fin nup) ℚ :=
  A.submatrix id (Fin.castAdd ndn)

/-- The slice `phi[:, nup:]`. -/
def dnCols {n nup ndn : ℕ} (A : StateMat n nup ndn) : Matrix (Fin n) (Fin ndn) ℚ :=
  A.submatrix id (Fin.natAdd nup)

/-! ### Local-energy kernel (Hubbard, spin-separated) -/

/-- Embeds `pauxy.estimators.local_energy_hubbard` (src/pauxy/estimators.py:807-826):
`ke = numpy.sum(system.T[0] * G[0] + system.T[1] * G[1])` (elementwise product,
total sum) and `pe = sum(system.U * G[0][i][i] * G[1][i][i] for i in range(nbasis))`;
returns `(ke + pe, ke, pe)`. -/
def local_energy_hubbard {n : ℕ} (T : Fin 2 → Mat n) (U : ℚ) (G : Fin 2 → Mat n) :
    ℚ × ℚ × ℚ :=
  let ke := ∑ i, ∑ j, (T 0 i j * G 0 i j + T 1 i j * G 1 i j)
  let pe := ∑ i, U * G 0 i i * G 1 i i
  (ke + pe, ke, pe)

/-! ### Back-propagation accumulator (class `BackPropagation`) -/

/-- Python's `step % nmax`: raises `ZeroDivisionError` when the modulus is
zero, otherwise returns the (sign-of-divisor) remainder, which for a positive
modulus coincides with `Int.emod`. -/
def pymod (a b : ℤ) : Except String ℤ :=
  if b = 0 then .error "ZeroDivisionError: integer division or modulo by zero"
  else .ok (a % b)

/-- A walker as seen by `BackPropagation.update_uhf`: importance weight,
current state `phi`, previous-window snapshot `phi_old`, and the
field-configuration history's per-step cosine and weight factors
(`walker.field_configs.get_block()` returns `(configs, cos_fac, weight_fac)`;
the entries are length-1 arrays `w[0]`, `c[0]`, modelled as scalars). -/
structure BPWalker (n nup ndn : ℕ) where
  weight : ℚ
  phi : StateMat n nup ndn
  phi_old : StateMat n nup ndn
  cos_fac : List ℚ
  weight_fac : List ℚ

/-- Construction-time state of `BackPropagation` relevant to `update_uhf`
(src/pauxy/estimators.py:345-390): the window length `nmax = bp['nback_prop']`,
the `restore_weights` policy (`None`, `"full"`, or any other value), the
Hubbard system data `(T, U)`, and the externally supplied back-propagation
routine `pauxy.propagation.back_propagate` (not part of src/; modelled as an
opaque function returning the back-propagated state of each walker). -/
structure BPCtx (n nup ndn : ℕ) where
  nmax : ℤ
  restore_weights : Option String
  T : Fin 2 → Mat n
  U : ℚ
  back_propagate : List (BPWalker n nup ndn) → List (StateMat n nup ndn)

/-- The accumulator buffer `self.estimates` of `BackPropagation`:
index 0 is the weight slot, indices 1-3 the `(E, T, V)` energies, and the
tail the flattened Green's function block. -/
structure BPBuf (n : ℕ) where
  w : ℚ
  e : ℚ
  t : ℚ
  v : ℚ
  Gacc : Fin 2 → Mat n

/-- Embeds `BackPropagation.calculate_weight_factor` (src/pauxy/estimators.py:464-471):
starting from `factor = 1`, multiply each per-step weight factor in, and when
`restore_weights == "full"` also divide out the per-step cosine factor. -/
def calculate_weight_factor {n nup ndn : ℕ} (restore_weights : Option String)
    (walker : BPWalker n nup ndn) : ℚ :=
  (walker.weight_fac.zip walker.cos_fac).foldl
    (fun factor wc =>
      let factor := factor * wc.1
      if restore_weights = some "full" then factor / wc.2 else factor) 1

/-- Embeds `BackPropagation.update_uhf` (src/pauxy/estimators.py:392-426).
Fires only when `step % self.nmax == 0` (the Python modulus raises on
`nmax = 0`).  For each walker paired with its back-propagated state, forms the
spin-separated Green's function `G[s] = gab(wb_s, phi_old_s).T`, computes the
Hubbard local energy, and adds `weight × (E, T, V, G)` to the buffer, where
`weight` is restored via `calculate_weight_factor` when a restore policy is
configured.  Finally accumulates the summed weight into slot 0 and advances
each walker's historic snapshot (`psi.copy_historic_wfn()`, modelled from the
spec: the walker's old snapshot is advanced to the current state). -/
def update_uhf {n nup ndn : ℕ} (ctx : BPCtx n nup ndn)
    (psi : List (BPWalker n nup ndn)) (step : ℤ) (buf : BPBuf n) :
    Except String (BPBuf n × List (BPWalker n nup ndn)) := do
  let r ← pymod step ctx.nmax
  if r ≠ 0 then
    return (buf, psi)
  let psi_bp := ctx.back_propagate psi
  let (buf, denominator) := (psi.zip psi_bp).foldl
    (fun (st : BPBuf n × ℚ) wp =>
      let (buf, denominator) := st
      let wnm := wp.1
      let wb := wp.2
      let G : Fin 2 → Mat n :=
        ![(gab (upCols wb) (upCols wnm.phi_old))ᵀ,
          (gab (dnCols wb) (dnCols wnm.phi_old))ᵀ]
      let etv := local_energy_hubbard ctx.T ctx.U G
      let weight :=
        if ctx.restore_weights.isSome then
          wnm.weight * calculate_weight_factor ctx.restore_weights wnm
        else wnm.weight
      (⟨buf.w, buf.e + weight * etv.1, buf.t + weight * etv.2.1,
        buf.v + weight * etv.2.2, fun s => buf.Gacc s + weight • G s⟩,
       denominator + weight))
    (buf, 0)
  let buf := { buf with w := buf.w + denominator }
  return (buf, psi.map fun w => { w with phi_old := w.phi })

/-- C3 (counterexample): with a zero back-propagation window the claim that
`update` "returns without accumulating and without raising" is false at the
concrete input `step = 1`, empty walker list: the guard `step % self.nmax`
raises `ZeroDivisionError`. -/
theorem update_uhf_zero_window_raises_concrete :
    update_uhf (⟨0, none, (fun _ => 0), 0, fun _ => []⟩ : BPCtx 1 1 1)
      [] 1 ⟨0, 0, 0, 0, fun _ => 0⟩ =
      .error "ZeroDivisionError: integer division or modulo by zero" := by
  rfl

/-- C3 (amended): for a back-propagation accumulator whose window length
`nback_prop` is zero, `update_uhf` raises `ZeroDivisionError` at every step and
for every walker population and buffer; a zero-length window is not a
constructed-but-degenerate "disabled" configuration (disabling requires
omitting the `back_propagated` estimator altogether). -/
theorem update_uhf_zero_window_raises {n nup ndn : ℕ}
    (restore_weights : Option String) (T : Fin 2 → Mat n) (U : ℚ)
    (back_propagate : List (BPWalker n nup ndn) → List (StateMat n nup ndn))
    (psi : List (BPWalker n nup ndn)) (step : ℤ) (buf : BPBuf n) :
    update_uhf ⟨0, restore_weights, T, U, back_propagate⟩ psi step buf =
      .error "ZeroDivisionError: integer division or modulo by zero" := by
  rfl

/-- C5: `calculate_weight_factor` returns the product of the stored per-step
weight factors for every policy other than `"full"`, and that product divided
by the product of the stored cosine factors for the `"full"` policy. -/
theorem calculate_weight_factor_spec {n nup ndn : ℕ} (rw : Option String)
    (w : BPWalker n nup ndn) (h : w.weight_fac.length = w.cos_fac.length) :
    (rw ≠ some "full" → calculate_weight_factor rw w = w.weight_fac.prod) ∧
      calculate_weight_factor (some "full") w =
        w.weight_fac.prod / w.cos_fac.prod := by
  constructor
  · intro hrw
    have hred : calculate_weight_factor rw w =
        (w.weight_fac.zip w.cos_fac).foldl (fun factor wc => factor * wc.1) 1 := by
      simp only [calculate_weight_factor, if_neg hrw]
    rw [hred]
    have key : ∀ (ws cs : List ℚ) (a : ℚ), ws.length = cs.length →
        (ws.zip cs).foldl (fun factor wc => factor * wc.1) a = a * ws.prod := by
      intro ws
      induction ws with
      | nil => intro cs a _; simp
      | cons x xs ih =>
        intro cs a hlen
        cases cs with
        | nil => simp at hlen
        | cons c cs' =>
          simp only [List.zip_cons_cons, List.foldl_cons, List.prod_cons]
          rw [ih cs' (a * x) (by simpa using hlen)]
          ring
    rw [key _ _ _ h, one_mul]
  · have hred : calculate_weight_factor (some "full") w =
        (w.weight_fac.zip w.cos_fac).foldl
          (fun factor wc => factor * wc.1 / wc.2) 1 := by
      simp only [calculate_weight_factor, if_pos]
    rw [hred]
    have key : ∀ (ws cs : List ℚ) (a : ℚ), ws.length = cs.length →
        (ws.zip cs).foldl (fun factor wc => factor * wc.1 / wc.2) a =
          a * ws.prod / cs.prod := by
      intro ws
      induction ws with
      | nil =>
        intro cs a hlen
        cases cs with
        | nil => simp
        | cons c cs' => simp at hlen
      | cons x xs ih =>
        intro cs a hlen
        cases cs with
        | nil => simp at hlen
        | cons c cs' =>
          simp only [List.zip_cons_cons, List.foldl_cons, List.prod_cons]
          rw [ih cs' (a * x / c) (by simpa using hlen)]
          rw [div_eq_mul_inv, div_eq_mul_inv, div_eq_mul_inv, mul_inv]
          ring
    rw [key _ _ _ h, one_mul]

/-- C5 (witness): the weight-factor contract instantiated at a concrete
two-step field-configuration block with weight factors `[2, 3]` and cosine
factors `[4, 5]`, under the non-`"full"` policy `"partial"` and the `"full"`
policy. -/
theorem calculate_weight_factor_spec_witness :
    calculate_weight_factor (some "partial")
        (⟨1, 0, 0, [4, 5], [2, 3]⟩ : BPWalker 1 1 1) = 6 ∧
      calculate_weight_factor (some "full")
        (⟨1, 0, 0, [4, 5], [2, 3]⟩ : BPWalker 1 1 1) = 6 / 20 := by
  have h := calculate_weight_factor_spec
    (some "partial") (⟨1, 0, 0, [4, 5], [2, 3]⟩ : BPWalker 1 1 1) rfl
  refine ⟨?_, ?_⟩
  · rw [h.1 (by simp)]
    norm_num [List.prod_cons]
  · rw [h.2]
    norm_num [List.prod_cons]

/-! ### Complex machine scalars

The mixed-estimator buffer has `dtype=complex`; complex machine floats are
modelled exactly as Gaussian rationals `Cx` (a rational real and imaginary
part with the usual complex ring operations), keeping every definition
executable. -/

/-- A complex scalar with exact rational real and imaginary parts. -/
@[ext]
structure Cx where
  re : ℚ
  im : ℚ

namespace Cx

instance : Zero Cx := ⟨⟨0, 0⟩⟩
instance : One Cx := ⟨⟨1, 0⟩⟩
instance : Add Cx := ⟨fun z w => ⟨z.re + w.re, z.im + w.im⟩⟩
instance : Neg Cx := ⟨fun z => ⟨-z.re, -z.im⟩⟩
instance : Sub Cx := ⟨fun z w => ⟨z.re - w.re, z.im - w.im⟩⟩
instance : Mul Cx :=
  ⟨fun z w => ⟨z.re * w.re - z.im * w.im, z.re * w.im + z.im * w.re⟩⟩

@[simp] theorem zero_re : (0 : Cx).re = 0 := rfl
@[simp] theorem zero_im : (0 : Cx).im = 0 := rfl
@[simp] theorem one_re : (1 : Cx).re = 1 := rfl
@[simp] theorem one_im : (1 : Cx).im = 0 := rfl
@[simp] theorem add_re (z w : Cx) : (z + w).re = z.re + w.re := rfl
@[simp] theorem add_im (z w : Cx) : (z + w).im = z.im + w.im := rfl
@[simp] theorem neg_re (z : Cx) : (-z).re = -z.re := rfl
@[simp] theorem neg_im (z : Cx) : (-z).im = -z.im := rfl
@[simp] theorem sub_re (z w : Cx) : (z - w).re = z.re - w.re := rfl
@[simp] theorem sub_im (z w : Cx) : (z - w).im = z.im - w.im := rfl
@[simp] theorem mul_re (z w : Cx) : (z * w).re = z.re * w.re - z.im * w.im := rfl
@[simp] theorem mul_im (z w : Cx) : (z * w).im = z.re * w.im + z.im * w.re := rfl

instance : CommRing Cx where
  add_assoc := by intros; ext <;> simp <;> ring
  zero_add := by intros; ext <;> simp
  add_zero := by intros; ext <;> simp
  add_comm := by intros; ext <;> simp <;> ring
  left_distrib := by intros; ext <;> simp <;> ring
  right_distrib := by intros; ext <;> simp <;> ring
  zero_mul := by intros; ext <;> simp
  mul_zero := by intros; ext <;> simp
  mul_assoc := by intros; ext <;> simp <;> ring
  one_mul := by intros; ext <;> simp
  mul_one := by intros; ext <;> simp
  mul_comm := by intros; ext <;> simp <;> ring
  neg_add_cancel := by intros; ext <;> simp
  sub_eq_add_neg := by intros; ext <;> simp <;> ring
  nsmul := nsmulRec
  zsmul := zsmulRec

/-- Complex reciprocal `1/z = conj z / |z|²` (Python complex division). -/
instance : Inv Cx :=
  ⟨fun z => ⟨z.re / (z.re ^ 2 + z.im ^ 2), -z.im / (z.re ^ 2 + z.im ^ 2)⟩⟩

instance : Div Cx := ⟨fun z w => z * w⁻¹⟩

@[simp] theorem inv_re (z : Cx) : z⁻¹.re = z.re / (z.re ^ 2 + z.im ^ 2) := rfl
@[simp] theorem inv_im (z : Cx) : z⁻¹.im = -z.im / (z.re ^ 2 + z.im ^ 2) := rfl

theorem div_def (z w : Cx) : z / w = z * w⁻¹ := rfl

@[simp] theorem zero_div (w : Cx) : (0 : Cx) / w = 0 := by
  rw [div_def]
  exact MulZeroClass.zero_mul w⁻¹

/-- The imaginary unit. -/
def I : Cx := ⟨0, 1⟩

/-- Embedding of a real machine float (exact rational) as a complex scalar. -/
def ofRat (q : ℚ) : Cx := ⟨q, 0⟩

@[simp] theorem ofRat_re (q : ℚ) : (ofRat q).re = q := rfl
@[simp] theorem ofRat_im (q : ℚ) : (ofRat q).im = 0 := rfl
@[simp] theorem ofRat_zero : ofRat 0 = 0 := rfl

end Cx

/-! ### Mixed estimator accumulator (class `Mixed`)

Buffer slots are complex (`Cx`); walker weights are real floats, modelled as
ℚ. -/

/-- A walker as seen by `Mixed.update`: its importance weight, its (complex)
local-energy components `(E, T, V)` against the trial state, its overlap `ot`
with the trial wavefunction, and its Green's function `G` (recomputed by
`w.greens_function(trial)` before use; modelled as a fixed per-walker value as
the claims fix weights and energies). -/
structure MixedWalker (nb : ℕ) where
  weight : ℚ
  E : Cx
  T : Cx
  V : Cx
  ot : Cx
  G : Fin 2 → Matrix (Fin nb) (Fin nb) Cx

/-- The `Mixed` accumulator buffer `self.estimates`: the named-field slots of
`EstimatorEnum` (weight, enumer, edenom, eproj, ekin, epot, time) followed by
the flattened Green's-function block. -/
structure MixedBuf (nb : ℕ) where
  weight : Cx
  enumer : Cx
  edenom : Cx
  eproj : Cx
  ekin : Cx
  epot : Cx
  time : Cx
  Gacc : Fin 2 → Matrix (Fin nb) (Fin nb) Cx

/-- Pointwise-equality extensionality for the mixed buffer. -/
theorem MixedBuf.ext' {nb : ℕ} {a b : MixedBuf nb}
    (h1 : a.weight = b.weight) (h2 : a.enumer = b.enumer)
    (h3 : a.edenom = b.edenom) (h4 : a.eproj = b.eproj) (h5 : a.ekin = b.ekin)
    (h6 : a.epot = b.epot) (h7 : a.time = b.time) (h8 : a.Gacc = b.Gacc) :
    a = b := by
  cases a
  cases b
  simp_all

namespace Mixed

/-- Embeds `Mixed.update` (src/pauxy/estimators.py:193-227).  With importance
sampling (`free_projection = false`) each walker adds
`weight * E.real` to the numerator, `weight * [T, V].real` to the kinetic and
potential slots, `weight` to both the weight and denominator slots, and — when
the one-particle density matrix is requested — `weight * G.real` to the
flattened Green's-function block.  In free-projection mode it instead adds
`weight * E * ot` to the numerator, `weight` to the weight slot and
`weight * ot` to the denominator. -/
def update {nb : ℕ} (rdm : Bool) (free_projection : Bool)
    (psi : List (MixedWalker nb)) (buf : MixedBuf nb) : MixedBuf nb :=
  if ¬ free_projection then
    psi.foldl
      (fun es w =>
        { es with
          enumer := es.enumer + Cx.ofRat (w.weight * w.E.re)
          ekin := es.ekin + Cx.ofRat (w.weight * w.T.re)
          epot := es.epot + Cx.ofRat (w.weight * w.V.re)
          weight := es.weight + Cx.ofRat w.weight
          edenom := es.edenom + Cx.ofRat w.weight
          Gacc :=
            if rdm then
              fun s => es.Gacc s + (w.G s).map (fun z => Cx.ofRat (w.weight * z.re))
            else es.Gacc })
      buf
  else
    psi.foldl
      (fun es w =>
        { es with
          enumer := es.enumer + Cx.ofRat w.weight * w.E * w.ot
          weight := es.weight + Cx.ofRat w.weight
          edenom := es.edenom + Cx.ofRat w.weight * w.ot })
      buf

/-- Embeds `Mixed.zero` (src/pauxy/estimators.py:307-310): zero every slot of the
local buffer, then reseed the timestamp slot with the current wall-clock time
(`now`).  The global buffer is zeroed entirely (returned separately by
`print_step` below). -/
def zero (nb : ℕ) (now : ℚ) : MixedBuf nb :=
  { weight := 0, enumer := 0, edenom := 0, eproj := 0, ekin := 0, epot := 0,
    time := Cx.ofRat now, Gacc := fun _ => 0 }

/-- The all-zero buffer (the state of `self.global_estimates` after `zero`). -/
def zeroGlobal (nb : ℕ) : MixedBuf nb :=
  { weight := 0, enumer := 0, edenom := 0, eproj := 0, ekin := 0, epot := 0,
    time := 0, Gacc := fun _ => 0 }

/-- The normalization divisor of `Mixed.print_step`:
`denom = es[ns.edenom] * nprocs / nmeasure`. -/
def denomOf {nb : ℕ} (buf : MixedBuf nb) (nprocs nmeasure : ℚ) : Cx :=
  buf.edenom * Cx.ofRat nprocs / Cx.ofRat nmeasure

/-- One emitted row of the `energies` dataset: the seven named slots pushed by
`self.output.push(self.global_estimates[:ns.time+1]/nmeasure)`, plus the
optional density-matrix row `rdm/denom/nmeasure`. -/
structure Row (nb : ℕ) where
  weight : Cx
  enumer : Cx
  edenom : Cx
  eproj : Cx
  ekin : Cx
  epot : Cx
  time : Cx
  Grow : Option (Fin 2 → Matrix (Fin nb) (Fin nb) Cx)

/-- Embeds `Mixed.print_step` (src/pauxy/estimators.py:229-250) in the
single-process path (`comm is None`, so `self.global_estimates[:] = es`):
divide the projected/kinetic/potential slots by
`denom = edenom * nprocs / nmeasure` (unguarded — a zero denominator divides
anyway), finalize the timestamp slot, copy the local buffer into the global
one, push one row divided by `nmeasure`, and reset via `zero` (local buffer
zeroed with the timestamp reseeded to `now2`, global buffer zeroed).
Returns (pushed row, local buffer after reset, global buffer after reset). -/
def print_step {nb : ℕ} (rdm : Bool) (buf : MixedBuf nb)
    (nprocs nmeasure : ℚ) (now now2 : ℚ) :
    Row nb × MixedBuf nb × MixedBuf nb :=
  let denom := denomOf buf nprocs nmeasure
  let es := { buf with
    eproj := buf.enumer / denom
    ekin := buf.ekin / denom
    epot := buf.epot / denom }
  let es := { es with time := (Cx.ofRat now - es.time) / Cx.ofRat nprocs }
  let globals := es
  let row : Row nb :=
    { weight := globals.weight / Cx.ofRat nmeasure
      enumer := globals.enumer / Cx.ofRat nmeasure
      edenom := globals.edenom / Cx.ofRat nmeasure
      eproj := globals.eproj / Cx.ofRat nmeasure
      ekin := globals.ekin / Cx.ofRat nmeasure
      epot := globals.epot / Cx.ofRat nmeasure
      time := globals.time / Cx.ofRat nmeasure
      Grow :=
        if rdm then
          some fun s => (globals.Gacc s).map (fun z => z / denom / Cx.ofRat nmeasure)
        else none }
  (row, zero nb now2, zeroGlobal nb)

/-- The per-walker additive contribution of one `Mixed.update` step, as a
tuple `(weight, enumer, edenom, ekin, epot, Gacc)`. -/
def contrib {nb : ℕ} (rdm : Bool) (free_projection : Bool)
    (w : MixedWalker nb) :
    Cx × Cx × Cx × Cx × Cx × (Fin 2 → Matrix (Fin nb) (Fin nb) Cx) :=
  if ¬ free_projection then
    (Cx.ofRat w.weight, Cx.ofRat (w.weight * w.E.re),
      Cx.ofRat w.weight, Cx.ofRat (w.weight * w.T.re),
      Cx.ofRat (w.weight * w.V.re),
      if rdm then
        fun s => (w.G s).map (fun z => Cx.ofRat (w.weight * z.re))
      else fun _ => 0)
  else
    (Cx.ofRat w.weight, Cx.ofRat w.weight * w.E * w.ot,
      Cx.ofRat w.weight * w.ot, 0, 0, fun _ => 0)

/-- Adding one contribution tuple onto a buffer. -/
def addContrib {nb : ℕ} (buf : MixedBuf nb)
    (c : Cx × Cx × Cx × Cx × Cx × (Fin 2 → Matrix (Fin nb) (Fin nb) Cx)) :
    MixedBuf nb :=
  { buf with
    weight := buf.weight + c.1
    enumer := buf.enumer + c.2.1
    edenom := buf.edenom + c.2.2.1
    ekin := buf.ekin + c.2.2.2.1
    epot := buf.epot + c.2.2.2.2.1
    Gacc := fun s => buf.Gacc s + c.2.2.2.2.2 s }

theorem addContrib_zero {nb : ℕ} (buf : MixedBuf nb) : addContrib buf 0 = buf := by
  apply MixedBuf.ext' <;> simp [addContrib]

theorem addContrib_add {nb : ℕ} (buf : MixedBuf nb)
    (c d : Cx × Cx × Cx × Cx × Cx × (Fin 2 → Matrix (Fin nb) (Fin nb) Cx)) :
    addContrib (addContrib buf c) d = addContrib buf (c + d) := by
  apply MixedBuf.ext' <;> simp [addContrib, add_assoc, Prod.fst_add, Prod.snd_add]

/-- The map `Mixed.update` is the fold of `addContrib ∘ contrib` over the walker list. -/
theorem update_eq_fold {nb : ℕ} (rdm fp : Bool) (psi : List (MixedWalker nb))
    (buf : MixedBuf nb) :
    update rdm fp psi buf =
      psi.foldl (fun es w => addContrib es (contrib rdm fp w)) buf := by
  cases fp with
  | false =>
    show psi.foldl _ buf = _
    apply List.foldl_ext
    intro es w _
    cases rdm <;>
      · apply MixedBuf.ext' <;> simp [addContrib, contrib]
  | true =>
    show psi.foldl _ buf = _
    apply List.foldl_ext
    intro es w _
    apply MixedBuf.ext' <;> simp [addContrib, contrib]

/-- The map `Mixed.update` adds the sum of the per-walker contributions. -/
theorem update_eq_addContrib_sum {nb : ℕ} (rdm fp : Bool)
    (psi : List (MixedWalker nb)) (buf : MixedBuf nb) :
    update rdm fp psi buf = addContrib buf ((psi.map (contrib rdm fp)).sum) := by
  rw [update_eq_fold]
  induction psi generalizing buf with
  | nil => simp [addContrib_zero]
  | cons w ws ih =>
    simp only [List.foldl_cons, List.map_cons, List.sum_cons]
    rw [ih, addContrib_add]

end Mixed

/-- C2 (counterexample): for a single walker of weight `1` with purely
imaginary local energy `E = i`, the importance-sampled `Mixed.update` stores
`weight * E.real = 0` in the numerator slot — not the full complex value
`weight * E = i` — so the imaginary part is discarded during accumulation,
contradicting the claim. -/
theorem mixed_update_discards_imag_concrete :
    (Mixed.update false false
        [(⟨1, Cx.I, 0, 0, 1, fun _ => 0⟩ : MixedWalker 1)] (Mixed.zero 1 0)).enumer = 0 ∧
      Cx.ofRat 1 * Cx.I = Cx.I ∧ Cx.I ≠ 0 := by
  refine ⟨?_, ?_, ?_⟩
  · simp [Mixed.update, Mixed.zero, Cx.I]
  · ext <;> simp [Cx.I]
  · intro h
    have := congrArg Cx.im h
    simp [Cx.I] at this

/-- C2 (amended): in importance-sampled mode `Mixed.update` accumulates
`weight × Re(E)` (and `Re(T)`, `Re(V)`) — the imaginary parts of the energies
are discarded at accumulation time, not retained until emission; only in
free-projection mode is the full complex value `weight · E · ⟨overlap⟩`
retained in the numerator slot. -/
theorem mixed_update_takes_real_part {nb : ℕ} (rdm : Bool)
    (psi : List (MixedWalker nb)) (buf : MixedBuf nb) :
    (Mixed.update rdm false psi buf).enumer =
        buf.enumer + (psi.map (fun w => Cx.ofRat (w.weight * w.E.re))).sum ∧
      (Mixed.update rdm false psi buf).ekin =
        buf.ekin + (psi.map (fun w => Cx.ofRat (w.weight * w.T.re))).sum ∧
      (Mixed.update rdm false psi buf).epot =
        buf.epot + (psi.map (fun w => Cx.ofRat (w.weight * w.V.re))).sum ∧
      (Mixed.update rdm true psi buf).enumer =
        buf.enumer + (psi.map (fun w => Cx.ofRat w.weight * w.E * w.ot)).sum := by
  refine ⟨?_, ?_, ?_, ?_⟩ <;>
    · rw [Mixed.update_eq_addContrib_sum]
      simp only [Mixed.addContrib]
      congr 1
      induction psi with
      | nil => simp
      | cons w ws ih =>
        simp only [List.map_cons, List.sum_cons, Prod.fst_add, Prod.snd_add, ih]
        simp [Mixed.contrib]

/-- C6: mixed-estimator accumulation is additive — updating with `l1` then
`l2` equals a single update with `l1 ++ l2` — and order-independent: any
permutation of the walker list yields the same buffer. -/
theorem mixed_update_additive_perm {nb : ℕ} (rdm fp : Bool)
    (buf : MixedBuf nb) (l1 l2 l l' : List (MixedWalker nb))
    (hperm : l.Perm l') :
    Mixed.update rdm fp l2 (Mixed.update rdm fp l1 buf) =
        Mixed.update rdm fp (l1 ++ l2) buf ∧
      Mixed.update rdm fp l buf = Mixed.update rdm fp l' buf := by
  constructor
  · rw [Mixed.update_eq_addContrib_sum, Mixed.update_eq_addContrib_sum,
      Mixed.update_eq_addContrib_sum, Mixed.addContrib_add, List.map_append,
      List.sum_append]
  · rw [Mixed.update_eq_addContrib_sum, Mixed.update_eq_addContrib_sum,
      (hperm.map (Mixed.contrib rdm fp)).sum_eq]

/-- C6 (witness): additivity and order-independence at a concrete population:
accumulating walkers `w1, w2` then `w3` equals one update on `[w1, w2, w3]`,
and the swapped population `[w2, w1]` yields the same buffer as `[w1, w2]`. -/
theorem mixed_update_additive_perm_witness :
    Mixed.update false false
        [(⟨3, Cx.I, 1, 2, 1, fun _ => 0⟩ : MixedWalker 1)]
        (Mixed.update false false
          [⟨1, 1, 0, 0, 1, fun _ => 0⟩, ⟨2, Cx.I, 1, 0, 1, fun _ => 0⟩]
          (Mixed.zero 1 0)) =
      Mixed.update false false
        [⟨1, 1, 0, 0, 1, fun _ => 0⟩, ⟨2, Cx.I, 1, 0, 1, fun _ => 0⟩,
          ⟨3, Cx.I, 1, 2, 1, fun _ => 0⟩] (Mixed.zero 1 0) ∧
      Mixed.update false false
          [(⟨1, 1, 0, 0, 1, fun _ => 0⟩ : MixedWalker 1), ⟨2, Cx.I, 1, 0, 1, fun _ => 0⟩]
          (Mixed.zero 1 0) =
        Mixed.update false false
          [⟨2, Cx.I, 1, 0, 1, fun _ => 0⟩, ⟨1, 1, 0, 0, 1, fun _ => 0⟩]
          (Mixed.zero 1 0) :=
  mixed_update_additive_perm false false (Mixed.zero 1 0)
    [⟨1, 1, 0, 0, 1, fun _ => 0⟩, ⟨2, Cx.I, 1, 0, 1, fun _ => 0⟩]
    [⟨3, Cx.I, 1, 2, 1, fun _ => 0⟩]
    [⟨1, 1, 0, 0, 1, fun _ => 0⟩, ⟨2, Cx.I, 1, 0, 1, fun _ => 0⟩]
    [⟨2, Cx.I, 1, 0, 1, fun _ => 0⟩, ⟨1, 1, 0, 0, 1, fun _ => 0⟩]
    (List.Perm.swap _ _ _)

/-- C7: after every emission both accumulator buffers are all-zero except the
local reseeded timestamp; a second emission with no intervening update on the
reset buffer pushes a row whose numerator and denominator entries are zero,
and its normalization divisor `edenom * nprocs / nmeasure` is exactly zero —
the division in `print_step` is performed unguarded on a zero divisor. -/
theorem mixed_reset_idempotent {nb : ℕ} (rdm rdm' : Bool) (buf : MixedBuf nb)
    (nprocs nmeasure now now2 now3 now4 : ℚ) :
    (Mixed.print_step rdm buf nprocs nmeasure now now2).2.1 =
        Mixed.zero nb now2 ∧
      (Mixed.print_step rdm buf nprocs nmeasure now now2).2.2 =
        Mixed.zeroGlobal nb ∧
      (Mixed.print_step rdm' (Mixed.zero nb now2) nprocs nmeasure
          now3 now4).1.enumer = 0 ∧
      (Mixed.print_step rdm' (Mixed.zero nb now2) nprocs nmeasure
          now3 now4).1.edenom = 0 ∧
      Mixed.denomOf (Mixed.zero nb now2) nprocs nmeasure = 0 := by
  refine ⟨rfl, rfl, ?_, ?_, ?_⟩ <;>
    simp [Mixed.print_step, Mixed.zero, Mixed.denomOf]

/-! ### ITCF accumulator (class `ITCF`)

The imaginary-time Green's-function recursion for the ordinary (UHF,
spin-separated) representation.  Spin-indexed numpy arrays of shape
`(2, n, n)` are modelled as `GPair n = Fin 2 → Mat n`; the rank-5 buffer
`self.spgf` (time slice, spin, greater/lesser, basis, basis) as a function
`Spgf n`.  The buffer dtype is `trial.G.dtype` and the accumulated values are
the `.real` parts of the Green's functions; scalars are modelled as exact
rationals, over which taking the real part is the identity. -/

/-- A spin-indexed pair of `n × n` matrices (numpy shape `(2, n, n)`). -/
abbrev GPair (n : ℕ) : Type := Fin 2 → Mat n

/-- The ITCF buffer `self.spgf`: time-slice index (ℕ; the code allocates
`nmax + 1` slices and only indices `0 .. nmax` are ever written), spin
channel, greater/lesser ordering, and the basis-indexed matrix. -/
def Spgf (n : ℕ) : Type := ℕ → Fin 2 → Fin 2 → Mat n

/-- The all-zero ITCF buffer (the state after `ITCF.zero`). -/
def spgfZero (n : ℕ) : Spgf n := fun _ _ _ => 0

/-- Embeds `self.spgf = self.spgf / denom`: elementwise scalar division. -/
def spgfDiv {n : ℕ} (sp : Spgf n) (d : ℚ) : Spgf n :=
  fun i s o => (sp i s o).map (· / d)

namespace ITCF

/-- Embeds `ITCF.initial_greens_function_uhf` (src/pauxy/estimators.py:708-713):
per spin channel `s`, `Ggr_s = I - gab(A_s, B_s)` and `Gls_s = I - Ggr_s`,
where `A_s`, `B_s` are the spin-`s` column blocks of the left and right
reference states.  (The source also receives `trial`, `nup` and `weights`;
`trial` and `weights` are unused in this variant and `nup` is the block
split, carried here in the types.) -/
def initial_greens_function_uhf {n nup ndn : ℕ} (A B : StateMat n nup ndn) :
    GPair n × GPair n :=
  let Ggr_up := (1 : Mat n) - gab (upCols A) (upCols B)
  let Ggr_down := (1 : Mat n) - gab (dnCols A) (dnCols B)
  let Gls_up := (1 : Mat n) - Ggr_up
  let Gls_down := (1 : Mat n) - Ggr_down
  (![Ggr_up, Ggr_down], ![Gls_up, Gls_down])

/-- Python's `max` over a nonempty iterable (`max(xs)`); on the empty list it
raises, modelled here with a junk value of `0` (all call sites of the source
pass nonempty determinant/weight arrays). -/
def pymax (l : List ℚ) : ℚ :=
  match l with
  | [] => 0
  | x :: xs => xs.foldl max x

/-- Embeds `pauxy.estimators.construct_multi_ghf_gab` (src/pauxy/estimators.py:1045-1057):
for each determinant component `Aix` of the multi-determinant bra,
`Gi[ix] = B.dot(inv_O.dot(Aix.conj().T))` with
`inv_O = inv((Aix.conj().T).dot(B))`, and `overlaps[ix] = 1.0 / det(inv_O)`.
The `coeffs` parameter is accepted and unused, as in the source. -/
def construct_multi_ghf_gab {m k : ℕ} (A : List (Matrix (Fin m) (Fin k) ℚ))
    (B : Matrix (Fin m) (Fin k) ℚ) (coeffs : List ℚ) :
    List (Matrix (Fin m) (Fin m) ℚ) × List ℚ :=
  let _ := coeffs
  (A.map fun Aix => B * (matInv (Aixᴴ * B) * Aixᴴ),
    A.map fun Aix => 1 / (matInv (Aixᴴ * B)).det)

/-- Embeds `pauxy.estimators.construct_multi_ghf_gab_back_prop`
(src/pauxy/estimators.py:1034-1042): scale the per-component weights
`bp_weights * coeffs * overlaps` by the larger of the maximal
back-propagation weight and the maximal overlap, then return the
weight-averaged Green's function `einsum('i,ijk->jk', full_weights, Gi) / denom`. -/
def construct_multi_ghf_gab_back_prop {m k : ℕ}
    (A : List (Matrix (Fin m) (Fin k) ℚ)) (B : Matrix (Fin m) (Fin k) ℚ)
    (coeffs bp_weights : List ℚ) : Matrix (Fin m) (Fin m) ℚ :=
  let GiOv := construct_multi_ghf_gab A B coeffs
  let scale := max (pymax bp_weights) (pymax GiOv.2)
  let full_weights :=
    (List.zipWith (· * ·) (List.zipWith (· * ·) bp_weights coeffs) GiOv.2).map
      (· / scale)
  let denom := full_weights.sum
  ((List.zipWith (· • ·) full_weights GiOv.1).sum).map (· / denom)

/-- Embeds `ITCF.initial_greens_function_ghf` (src/pauxy/estimators.py:715-719):
`Ggr = I - GAB` and `Gls = I - Ggr` on the full spin-orbital block, with
`GAB` the multi-determinant back-propagated Green's function. -/
def initial_greens_function_ghf {m k : ℕ} (A : List (Matrix (Fin m) (Fin k) ℚ))
    (B : Matrix (Fin m) (Fin k) ℚ) (coeffs weights : List ℚ) :
    Matrix (Fin m) (Fin m) ℚ × Matrix (Fin m) (Fin m) ℚ :=
  let GAB := construct_multi_ghf_gab_back_prop A B coeffs weights
  let Ggr := (1 : Matrix (Fin m) (Fin m) ℚ) - GAB
  let Gls := (1 : Matrix (Fin m) (Fin m) ℚ) - Ggr
  (Ggr, Gls)

/-- Embeds `ITCF.accumulate_uhf` (src/pauxy/estimators.py:721-725): add
`weight * Ggr[s].real` into `spgf[idx, s, 0]` and `weight * Gls[s].real` into
`spgf[idx, s, 1]` (real parts are the identity over the rational model). -/
def accumulate_uhf {n : ℕ} (sp : Spgf n) (idx : ℕ) (weight : ℚ)
    (Ggr Gls : GPair n) : Spgf n :=
  fun i s o =>
    if i = idx then sp i s o + weight • (if o = 0 then Ggr s else Gls s)
    else sp i s o

/-- Embeds `ITCF.increment_tau_uhf_unstable` (src/pauxy/estimators.py:738-743):
`Ggr[s] = B[s]·Ggr[s]` and `Gls[s] = Gls[s]·B[s]⁻¹`, each spin channel using
only its own inputs.  (The source's unused optional `Gnn` parameters are
omitted.) -/
def increment_tau_uhf_unstable {n : ℕ} (Ggr Gls : GPair n) (B : GPair n) :
    GPair n × GPair n :=
  let Ggr0 := B 0 * Ggr 0
  let Ggr1 := B 1 * Ggr 1
  let Gls0 := Gls 0 * matInv (B 0)
  let Gls1 := Gls 1 * matInv (B 1)
  (![Ggr0, Ggr1], ![Gls0, Gls1])

/-- Embeds `ITCF.increment_tau_uhf_stable` (src/pauxy/estimators.py:745-750).
The assignments are sequential in-place updates; the source's last line
`Gls[1] = Gls[0].dot(Gnn_ls[1].dot(inv(B[1])))` reads the just-updated
up-spin entry `Gls[0]` (where every sibling variant reads `Gls[1]`), which is
modelled faithfully here by `Gls1 := Gls0 * …`. -/
def increment_tau_uhf_stable {n : ℕ} (Ggr Gls : GPair n) (B : GPair n)
    (Gnn_gr Gnn_ls : GPair n) : GPair n × GPair n :=
  let Ggr0 := (B 0 * Gnn_gr 0) * Ggr 0
  let Ggr1 := (B 1 * Gnn_gr 1) * Ggr 1
  let Gls0 := Gls 0 * (Gnn_ls 0 * matInv (B 0))
  let Gls1 := Gls0 * (Gnn_ls 1 * matInv (B 1))
  (![Ggr0, Ggr1], ![Gls0, Gls1])

/-- Embeds `ITCF.increment_tau_ghf_unstable` (src/pauxy/estimators.py:733-736). -/
def increment_tau_ghf_unstable {m : ℕ} (Ggr Gls B : Matrix (Fin m) (Fin m) ℚ) :
    Matrix (Fin m) (Fin m) ℚ × Matrix (Fin m) (Fin m) ℚ :=
  (B * Ggr, Gls * matInv B)

/-- Embeds `ITCF.increment_tau_ghf_stable` (src/pauxy/estimators.py:752-755). -/
def increment_tau_ghf_stable {m : ℕ}
    (Ggr Gls B Gnn_gr Gnn_ls : Matrix (Fin m) (Fin m) ℚ) :
    Matrix (Fin m) (Fin m) ℚ × Matrix (Fin m) (Fin m) ℚ :=
  ((B * Gnn_gr) * Ggr, (Gnn_ls * matInv B) * Gls)

end ITCF

/-- A walker as seen by the ITCF accumulator: its importance weight, its
current state `phi`, its back-propagated left state `phi_bp`, its stored
initial (right) reference state `phi_init`, the auxiliary-field configurations
of the ITCF window (`w.field_configs.get_superblock()[0]`, opaque type `C`),
and the walker's auxiliary `weights` array (passed through to the GHF
back-propagation primitives, unused in the UHF path). -/
structure ITCFWalker (n nup ndn : ℕ) (C : Type) where
  weight : ℚ
  phi : StateMat n nup ndn
  phi_bp : StateMat n nup ndn
  phi_init : StateMat n nup ndn
  configs : List C
  weights : List ℚ

/-- Construction-time dispatch state of the `ITCF` accumulator for the
ordinary (UHF) representation.  The propagation primitives live in
`pauxy.propagation` / `pauxy.utils`, which are not part of src/; they are
modelled from the spec as opaque functions:

* `back_propagate_single phi configs` — "replay the first Nmax steps of its
  stored field-configuration path to reconstruct an intermediate left
  reference state"; the in-place mutation of `w.phi_bp` is modelled by its
  return value, identical whether or not intermediates are stored;
* `back_propagate_single_store phi configs` — the list of "every intermediate
  left-state" stored when running the stabilized variant (`store=True`);
* `construct_propagator_matrix c` — "build the single-step propagator matrix
  for the current field configuration", one block per spin;
* `propagate_single phi B` — advance a walker matrix by one step;
* `reorthoU` / `reorthoD` — re-orthonormalization of a spin block, returning
  the orthonormalized matrix (the discarded triangular factor is dropped). -/
structure ITCFCtx (n nup ndn : ℕ) (C : Type) where
  nstblz : ℕ
  back_propagate_single : StateMat n nup ndn → List C → StateMat n nup ndn
  back_propagate_single_store : StateMat n nup ndn → List C → List (StateMat n nup ndn)
  construct_propagator_matrix : C → GPair n
  propagate_single : StateMat n nup ndn → GPair n → StateMat n nup ndn
  reorthoU : Matrix (Fin n) (Fin nup) ℚ → Matrix (Fin n) (Fin nup) ℚ
  reorthoD : Matrix (Fin n) (Fin ndn) ℚ → Matrix (Fin n) (Fin ndn) ℚ

/-- Replace the up-spin column block `phi[:, :nup]` of a state matrix. -/
def withUpCols {n nup ndn : ℕ} (A : StateMat n nup ndn)
    (U : Matrix (Fin n) (Fin nup) ℚ) : StateMat n nup ndn :=
  fun i j => if h : (j : ℕ) < nup then U i ⟨j, h⟩ else A i j

/-- Replace the down-spin column block `phi[:, nup:]` of a state matrix. -/
def withDnCols {n nup ndn : ℕ} (A : StateMat n nup ndn)
    (D : Matrix (Fin n) (Fin ndn) ℚ) : StateMat n nup ndn :=
  fun i j =>
    if h : (j : ℕ) < nup then A i j
    else D i ⟨(j : ℕ) - nup, by have := j.isLt; omega⟩

namespace ITCF

/-- One iteration of the forward-in-imaginary-time loop of
`calculate_spgf_unstable`: build the step propagator for the current
configuration, advance the running Green's functions, and accumulate into the
next slice.  The loop state is `(spgf, Ggr, Gls, ic)`. -/
def unstable_inner_step {n nup ndn : ℕ} {C : Type} (ctx : ITCFCtx n nup ndn C)
    (wweight : ℚ) (st : Spgf n × GPair n × GPair n × ℕ) (c : C) :
    Spgf n × GPair n × GPair n × ℕ :=
  let B := ctx.construct_propagator_matrix c
  let GG := increment_tau_uhf_unstable st.2.1 st.2.2.1 B
  (accumulate_uhf st.1 (st.2.2.2 + 1) wweight GG.1 GG.2, GG.1, GG.2,
    st.2.2.2 + 1)

/-- The per-walker body of `calculate_spgf_unstable`: back-propagate the left
reference along the window's field path (mutating `w.phi_bp`, modelled by the
returned state), accumulate the equal-time Green's function into slice 0, then
walk the path forward accumulating slices `1 .. Nmax`. -/
def unstable_walker_step {n nup ndn : ℕ} {C : Type} (ctx : ITCFCtx n nup ndn C)
    (sp : Spgf n) (w : ITCFWalker n nup ndn C) : Spgf n :=
  let phi_bp := ctx.back_propagate_single w.phi_bp w.configs
  let GG := initial_greens_function_uhf phi_bp w.phi_init
  let sp := accumulate_uhf sp 0 w.weight GG.1 GG.2
  (w.configs.foldl (unstable_inner_step ctx w.weight) (sp, GG.1, GG.2, 0)).1

/-- Embeds `ITCF.calculate_spgf_unstable` (src/pauxy/estimators.py:594-637) for the
UHF representation: run the per-walker accumulation over the population,
divide the whole buffer by the total walker weight (a single normalization),
and reset each walker's initial snapshot to its current state
(`psi.copy_init_wfn()`, modelled from the spec). -/
def calculate_spgf_unstable {n nup ndn : ℕ} {C : Type} (ctx : ITCFCtx n nup ndn C)
    (walkers : List (ITCFWalker n nup ndn C)) (sp : Spgf n) :
    Spgf n × List (ITCFWalker n nup ndn C) :=
  let denom := (walkers.map (·.weight)).sum
  let sp := walkers.foldl (unstable_walker_step ctx) sp
  (spgfDiv sp denom, walkers.map fun w => { w with phi_init := w.phi })

/-- Loop state of the stable recursion: the buffer, the running cumulative
Green's functions, the current equal-time Green's functions `G(n,n)`, the
forward-propagated right state, and the step counter. -/
structure StableState (n nup ndn : ℕ) where
  sp : Spgf n
  Ggr : GPair n
  Gls : GPair n
  Gnn_gr : GPair n
  Gnn_ls : GPair n
  phi_init : StateMat n nup ndn
  ic : ℕ

/-- One iteration of the forward loop of `calculate_spgf_stable`: advance the
cumulative Green's functions with the stabilized increment using the current
`G(n,n)`, accumulate slice `ic + 1`, then rebuild `G(n+1,n+1)` from the stored
intermediate left state `psi_Ls[len(psi_Ls)-ic-1]` and the forward-propagated
(periodically re-orthonormalized) right state. -/
def stable_inner_step {n nup ndn : ℕ} {C : Type} (ctx : ITCFCtx n nup ndn C)
    (wweight : ℚ) (psi_Ls : List (StateMat n nup ndn))
    (st : StableState n nup ndn) (c : C) : StableState n nup ndn :=
  let B := ctx.construct_propagator_matrix c
  let GG := increment_tau_uhf_stable st.Ggr st.Gls B st.Gnn_gr st.Gnn_ls
  let sp := accumulate_uhf st.sp (st.ic + 1) wweight GG.1 GG.2
  let L := psi_Ls.getD (psi_Ls.length - st.ic - 1) 0
  let phi_init := ctx.propagate_single st.phi_init B
  let phi_init :=
    if st.ic ≠ 0 ∧ st.ic % ctx.nstblz = 0 then
      withDnCols (withUpCols phi_init (ctx.reorthoU (upCols phi_init)))
        (ctx.reorthoD (dnCols phi_init))
    else phi_init
  let Gnn := initial_greens_function_uhf L phi_init
  ⟨sp, GG.1, GG.2, Gnn.1, Gnn.2, phi_init, st.ic + 1⟩

/-- Embeds `ITCF.calculate_spgf_stable` (src/pauxy/estimators.py:639-706) for the
UHF representation (Feldbacher–Assad): identical slice-0 accumulation, then
the stabilized forward recursion seeded with identity cumulative Green's
functions.  (The source seeds `Ggr = Gls = numpy.identity(I.shape[0])`, a
single `n × n` identity that the spin-indexed updates of
`increment_tau_uhf_stable` then index; under the spin-indexed reading used by
that function's other arguments this is the per-spin identity seed modelled
here.  Slice 0, the subject of the theorems below, is accumulated before the
seed is ever used.)  This is the per-walker body. -/
def stable_walker_step {n nup ndn : ℕ} {C : Type} (ctx : ITCFCtx n nup ndn C)
    (sp : Spgf n) (w : ITCFWalker n nup ndn C) : Spgf n :=
  let Ggr : GPair n := fun _ => 1
  let Gls : GPair n := fun _ => 1
  let phi_bp := ctx.back_propagate_single w.phi_bp w.configs
  let psi_Ls := ctx.back_propagate_single_store w.phi_bp w.configs
  let Gnn := initial_greens_function_uhf phi_bp w.phi_init
  let sp := accumulate_uhf sp 0 w.weight Gnn.1 Gnn.2
  (w.configs.foldl (stable_inner_step ctx w.weight psi_Ls)
    ⟨sp, Ggr, Gls, Gnn.1, Gnn.2, w.phi_init, 0⟩).sp

/-- Embeds `ITCF.calculate_spgf_stable`, continued: the population loop, the single
normalization by the total weight, and the reset of the walkers' initial
snapshots. -/
def calculate_spgf_stable {n nup ndn : ℕ} {C : Type} (ctx : ITCFCtx n nup ndn C)
    (walkers : List (ITCFWalker n nup ndn C)) (sp : Spgf n) :
    Spgf n × List (ITCFWalker n nup ndn C) :=
  let denom := (walkers.map (·.weight)).sum
  let sp := walkers.foldl (stable_walker_step ctx) sp
  (spgfDiv sp denom, walkers.map fun w => { w with phi_init := w.phi })

theorem accumulate_uhf_ne {n : ℕ} (sp : Spgf n) {i idx : ℕ} (h : i ≠ idx)
    (weight : ℚ) (Ggr Gls : GPair n) :
    accumulate_uhf sp idx weight Ggr Gls i = sp i := by
  funext s o
  simp [accumulate_uhf, h]

theorem accumulate_uhf_self {n : ℕ} (sp : Spgf n) (idx : ℕ) (weight : ℚ)
    (Ggr Gls : GPair n) :
    accumulate_uhf sp idx weight Ggr Gls idx =
      fun s o => sp idx s o + weight • (if o = 0 then Ggr s else Gls s) := by
  funext s o
  simp [accumulate_uhf]

/-- The forward loop of the unstable recursion never writes slice 0. -/
theorem unstable_inner_slice0 {n nup ndn : ℕ} {C : Type}
    (ctx : ITCFCtx n nup ndn C) (wweight : ℚ) (cfgs : List C)
    (st : Spgf n × GPair n × GPair n × ℕ) :
    (cfgs.foldl (unstable_inner_step ctx wweight) st).1 0 = st.1 0 := by
  induction cfgs generalizing st with
  | nil => rfl
  | cons c cs ih =>
    rw [List.foldl_cons, ih]
    simp only [unstable_inner_step]
    exact accumulate_uhf_ne _ (Nat.succ_ne_zero _).symm _ _ _

/-- The forward loop of the stable recursion never writes slice 0. -/
theorem stable_inner_slice0 {n nup ndn : ℕ} {C : Type}
    (ctx : ITCFCtx n nup ndn C) (wweight : ℚ)
    (psi_Ls : List (StateMat n nup ndn)) (cfgs : List C)
    (st : StableState n nup ndn) :
    (cfgs.foldl (stable_inner_step ctx wweight psi_Ls) st).sp 0 = st.sp 0 := by
  induction cfgs generalizing st with
  | nil => rfl
  | cons c cs ih =>
    rw [List.foldl_cons, ih]
    simp only [stable_inner_step]
    exact accumulate_uhf_ne _ (Nat.succ_ne_zero _).symm _ _ _

/-- The slice-0 contribution of one walker: its weight times the equal-time
Green's function between its back-propagated left reference state and its
stored initial right reference state (greater component in ordering slot 0,
lesser in slot 1). -/
def slice0_contrib {n nup ndn : ℕ} {C : Type} (ctx : ITCFCtx n nup ndn C)
    (w : ITCFWalker n nup ndn C) : Fin 2 → Fin 2 → Mat n :=
  fun s o =>
    let GG := initial_greens_function_uhf
      (ctx.back_propagate_single w.phi_bp w.configs) w.phi_init
    w.weight • (if o = 0 then GG.1 s else GG.2 s)

/-- Modelled from the spec: "slice 0 of the ITCF buffer … equals the
weight-accumulated equal-time Green's function computed directly between the
window's left and right reference states" — the weight-weighted sum of the
walkers' equal-time Green's functions, normalized by the total accumulated
weight. -/
def itcf_slice0_direct {n nup ndn : ℕ} {C : Type} (ctx : ITCFCtx n nup ndn C)
    (walkers : List (ITCFWalker n nup ndn C)) : Fin 2 → Fin 2 → Mat n :=
  let denom := (walkers.map (·.weight)).sum
  fun s o => (((walkers.map (slice0_contrib ctx)).sum) s o).map (· / denom)

theorem unstable_fold_slice0 {n nup ndn : ℕ} {C : Type}
    (ctx : ITCFCtx n nup ndn C) (walkers : List (ITCFWalker n nup ndn C))
    (sp : Spgf n) :
    (walkers.foldl (unstable_walker_step ctx) sp) 0 =
      sp 0 + (walkers.map (slice0_contrib ctx)).sum := by
  induction walkers generalizing sp with
  | nil => simp
  | cons w ws ih =>
    rw [List.foldl_cons, ih, List.map_cons, List.sum_cons, ← add_assoc]
    congr 1
    rw [unstable_walker_step, unstable_inner_slice0]
    funext s o
    simp [accumulate_uhf, slice0_contrib]

theorem stable_fold_slice0 {n nup ndn : ℕ} {C : Type}
    (ctx : ITCFCtx n nup ndn C) (walkers : List (ITCFWalker n nup ndn C))
    (sp : Spgf n) :
    (walkers.foldl (stable_walker_step ctx) sp) 0 =
      sp 0 + (walkers.map (slice0_contrib ctx)).sum := by
  induction walkers generalizing sp with
  | nil => simp
  | cons w ws ih =>
    rw [List.foldl_cons, ih, List.map_cons, List.sum_cons, ← add_assoc]
    congr 1
    rw [stable_walker_step, stable_inner_slice0]
    funext s o
    simp [accumulate_uhf, slice0_contrib]

end ITCF

/-- C1: starting from the zeroed buffer, slice 0 of the ITCF buffer produced
by one accumulation window equals the directly computed weight-accumulated
equal-time Green's function between each walker's back-propagated left
reference state and its initial right reference state, and it is identical
for the stable (`calculate_spgf_stable`) and unstable
(`calculate_spgf_unstable`) policies. -/
theorem itcf_slice0_policy_agreement {n nup ndn : ℕ} {C : Type}
    (ctx : ITCFCtx n nup ndn C) (walkers : List (ITCFWalker n nup ndn C)) :
    (ITCF.calculate_spgf_unstable ctx walkers (spgfZero n)).1 0 =
        ITCF.itcf_slice0_direct ctx walkers ∧
      (ITCF.calculate_spgf_stable ctx walkers (spgfZero n)).1 0 =
        ITCF.itcf_slice0_direct ctx walkers ∧
      (ITCF.calculate_spgf_stable ctx walkers (spgfZero n)).1 0 =
        (ITCF.calculate_spgf_unstable ctx walkers (spgfZero n)).1 0 := by
  have hu : (ITCF.calculate_spgf_unstable ctx walkers (spgfZero n)).1 0 =
      ITCF.itcf_slice0_direct ctx walkers := by
    funext s o
    show (((walkers.foldl (ITCF.unstable_walker_step ctx) (spgfZero n)) 0 s o).map
      (· / (walkers.map (·.weight)).sum)) = _
    rw [ITCF.unstable_fold_slice0 ctx walkers (spgfZero n)]
    simp [spgfZero, ITCF.itcf_slice0_direct]
  have hs : (ITCF.calculate_spgf_stable ctx walkers (spgfZero n)).1 0 =
      ITCF.itcf_slice0_direct ctx walkers := by
    funext s o
    show (((walkers.foldl (ITCF.stable_walker_step ctx) (spgfZero n)) 0 s o).map
      (· / (walkers.map (·.weight)).sum)) = _
    rw [ITCF.stable_fold_slice0 ctx walkers (spgfZero n)]
    simp [spgfZero, ITCF.itcf_slice0_direct]
  exact ⟨hu, hs, hs.trans hu.symm⟩

theorem matInv_one {k : ℕ} : matInv (1 : Matrix (Fin k) (Fin k) ℚ) = 1 := by
  rw [matInv_eq_inv, inv_one]

/-- C9 (code_bug evidence): the stable spin-separated increment mixes the
spin channels.  At the concrete inputs below — identical everywhere except in
the up-spin lesser component `Gls[0]` (`1` versus `!![2]`), with all
propagator and equal-time blocks the identity — the returned down-spin lesser
component `Gls[1]` differs (`1` versus `!![2]`), because line 749 of
src/pauxy/estimators.py computes it from the just-updated `Gls[0]` instead of
`Gls[1]`.  The sibling unstable increment returns the same down-spin lesser
component for both inputs. -/
theorem increment_tau_uhf_stable_mixes_spins :
    (ITCF.increment_tau_uhf_stable (n := 1) ![1, 1] ![1, 1] ![1, 1] ![1, 1]
          ![1, 1]).2 1 ≠
        (ITCF.increment_tau_uhf_stable (n := 1) ![1, 1] ![!![2], 1] ![1, 1]
          ![1, 1] ![1, 1]).2 1 ∧
      (![(1 : Mat 1), 1] : GPair 1) 1 = (![!![2], 1] : GPair 1) 1 ∧
      (ITCF.increment_tau_uhf_unstable (n := 1) ![1, 1] ![1, 1] ![1, 1]).2 1 =
        (ITCF.increment_tau_uhf_unstable (n := 1) ![1, 1] ![!![2], 1]
          ![1, 1]).2 1 := by
  refine ⟨?_, ?_, ?_⟩
  · have h1 : (ITCF.increment_tau_uhf_stable (n := 1) ![1, 1] ![1, 1] ![1, 1]
        ![1, 1] ![1, 1]).2 1 = 1 := by
      simp [ITCF.increment_tau_uhf_stable, matInv_one]
    have h2 : (ITCF.increment_tau_uhf_stable (n := 1) ![1, 1] ![!![2], 1]
        ![1, 1] ![1, 1] ![1, 1]).2 1 = !![2] := by
      simp [ITCF.increment_tau_uhf_stable, matInv_one]
    rw [h1, h2]
    intro h
    have h00 := congrFun (congrFun h 0) 0
    simp [Matrix.one_apply] at h00
  · simp
  · simp [ITCF.increment_tau_uhf_unstable, matInv_one]

/-- C10: the greater and lesser Green's functions returned by the initial
Green's-function constructors are complementary — `Ggr + Gls = I` in each
spin channel for the UHF variant and on the full spin-orbital block for the
GHF variant (for every pair of reference matrices, singular overlaps
included, since `Gls` is constructed as `I − Ggr`). -/
theorem initial_greens_function_complementary {n nup ndn m k : ℕ} :
    (∀ (A B : StateMat n nup ndn) (s : Fin 2),
        (ITCF.initial_greens_function_uhf A B).1 s +
          (ITCF.initial_greens_function_uhf A B).2 s = 1) ∧
      (∀ (A : List (Matrix (Fin m) (Fin k) ℚ)) (B : Matrix (Fin m) (Fin k) ℚ)
          (coeffs weights : List ℚ),
        (ITCF.initial_greens_function_ghf A B coeffs weights).1 +
          (ITCF.initial_greens_function_ghf A B coeffs weights).2 = 1) := by
  constructor
  · intro A B s
    fin_cases s <;> simp [ITCF.initial_greens_function_uhf]
  · intro A B coeffs weights
    simp [ITCF.initial_greens_function_ghf]

/-! ### ITCF persistence (`ITCF.to_file`) -/

/-- The ITCF output mode `self.mode`: `'full'`, `'diagonal'`, or an explicit
list of basis-index pairs. -/
inductive SpgfMode
  | full
  | diagonal
  | elements (l : List (ℕ × ℕ))

/-- One time slice of the (reduced, normalized) spgf buffer passed to
`to_file`: spin × ordering × basis × basis. -/
abbrev SpgfSlice (n : ℕ) : Type := Fin 2 → Fin 2 → Mat n

/-- Data pushed to the HDF5 dataset by one `to_file` call. -/
inductive SpgfPushed (n : ℕ)
  | full (d : List (SpgfSlice n))
  | diagonal (d : List (Fin 2 → Fin 2 → Fin n → ℚ))
  | elements (d : List (List ℚ))

/-- Embeds `ITCF.to_file` (src/pauxy/estimators.py:775-790).  Mode `'full'` pushes
the whole buffer; mode `'diagonal'` pushes `spgf.diagonal(axis1=3, axis2=4)`;
any other mode evaluates `[g[mode] for g in spgf]`, where `mode` (line 790) is
an unbound name — neither a local, an argument (`self.mode` is the
attribute), nor a module global — so as soon as the comprehension evaluates
its first element Python raises `NameError` (the buffer's first axis has
`nmax + 1 ≥ 1` slices, so the comprehension body always runs). -/
def ITCF.to_file {n : ℕ} (mode : SpgfMode) (spgf : List (SpgfSlice n)) :
    Except String (SpgfPushed n) :=
  match mode with
  | .full => .ok (.full spgf)
  | .diagonal => .ok (.diagonal (spgf.map fun g s o b => g s o b b))
  | .elements _ =>
      if spgf.isEmpty then .ok (.elements [])
      else .error "NameError: name mode is not defined"

/-- C8 (code_bug evidence): mode `'full'` persists every slice (hence every
basis-index pair) and mode `'diagonal'` persists exactly the diagonal
`spgf[i, s, o, b, b]` of each slice, but an explicit element list — contra the
claim and the class docstring — never persists the selected elements: the
branch raises `NameError` on every non-empty buffer, shown here at the
concrete mode `[(0, 0)]` and a one-slice buffer. -/
theorem itcf_to_file_modes {n : ℕ} :
    (∀ spgf : List (SpgfSlice n), ITCF.to_file .full spgf = .ok (.full spgf)) ∧
      (∀ spgf : List (SpgfSlice n),
        ITCF.to_file .diagonal spgf =
          .ok (.diagonal (spgf.map fun g s o b => g s o b b))) ∧
      ITCF.to_file (n := n) (.elements [(0, 0)]) [fun _ _ => 1] =
        .error "NameError: name mode is not defined" := by
  exact ⟨fun _ => rfl, fun _ => rfl, rfl⟩

end Pauxy
